import Mathlib

/-!
# gmq: the mmap-backed spool queue and the delay engine

A shallow embedding of `internal/gnode/queue.go` (the segmented spool queue) and of
the routing and timer decisions of `mq/dispatcher.go` and `mq/bucket.go`.

Conventions of the embedding.

* Go `int` offsets, lengths and segment ids are natural numbers; `int64` ids are
  integers, converted through `uint64` exactly as the source does.
* A segment file `<name>_<fid>.log` is identified by its `fid`.  Both mappings are
  `MAP_SHARED`, so the `data` slices of writer and reader alias the pages of the
  file they map; the pages live in `queue.bytes fid` and the directory entry in
  `queue.present fid`.  While `flag` is set, `data` is the mapping of segment `fid`
  (only `mmap` changes `fid`, and it is only called with `flag` unset).
* The operating system is deterministic: creating, extending, mapping and
  unmapping succeed; opening a segment read-only fails exactly when the file does
  not exist, and so does removing it.
* A Go run-time panic (slice bounds or index out of range) is the outcome `panic`;
  the state returned with it is the state at the moment of the panic.
-/

namespace gnode

/-- The segment size, `const FILE_SIZE = 209715200`. -/
def FILE_SIZE : Nat := 209715200

/-- The errors `read` and `write` return, by the place that makes them. -/
inductive Err where
  /-- The value `errors.New("not data")`. -/
  | notData
  /-- The value `errors.New("找不到写入的偏移量")`: no entry of `wmap` for the segment. -/
  | noWriteOffset
  /-- The value `errors.New("非法信息")`: the flag byte is not `'v'`. -/
  | illegal
  /-- An error of the operating system, passed on. -/
  | io
  deriving DecidableEq

/-- How a call ends: with a value, with an error value, or in a run-time panic. -/
inductive Outcome (α : Type) where
  | ok (a : α)
  | err (e : Err)
  | panic
  deriving DecidableEq

/-- The struct `writer`; `data` is the mapping of segment `fid` (see the header). -/
structure writer where
  fid : Nat
  offset : Nat
  wmap : Nat → Option Nat
  flag : Bool

/-- The struct `reader`; `data` is the mapping of segment `fid` (see the header). -/
structure reader where
  fid : Nat
  offset : Nat
  flag : Bool
  deriving DecidableEq

/-- The struct `queue` together with the segment files of its directory. -/
structure queue where
  w : writer
  r : reader
  present : Nat → Bool
  bytes : Nat → Nat → UInt8

/-- The constructor `NewQueue` in a directory that holds no segment file. -/
def NewQueue : queue :=
  { w := { fid := 0, offset := 0, wmap := fun _ => none, flag := false }
    r := { fid := 0, offset := 0, flag := false }
    present := fun _ => false
    bytes := fun _ _ => 0 }

/-- The flag byte `'v'`. -/
def flagV : UInt8 := 118

/-- The function `binary.BigEndian.PutUint64`: the eight bytes of `v`, high byte first. -/
def putUint64 (v : Nat) : List UInt8 :=
  [UInt8.ofNat (v / 2 ^ 56), UInt8.ofNat (v / 2 ^ 48), UInt8.ofNat (v / 2 ^ 40),
   UInt8.ofNat (v / 2 ^ 32), UInt8.ofNat (v / 2 ^ 24), UInt8.ofNat (v / 2 ^ 16),
   UInt8.ofNat (v / 2 ^ 8), UInt8.ofNat v]

/-- The function `binary.BigEndian.PutUint32`: the four bytes of `v`, high byte first. -/
def putUint32 (v : Nat) : List UInt8 :=
  [UInt8.ofNat (v / 2 ^ 24), UInt8.ofNat (v / 2 ^ 16), UInt8.ofNat (v / 2 ^ 8), UInt8.ofNat v]

/-- The function `binary.BigEndian.Uint64` on the eight bytes of `seg` from `off`. -/
def getUint64 (seg : Nat → UInt8) (off : Nat) : Nat :=
  (seg off).toNat * 2 ^ 56 + (seg (off + 1)).toNat * 2 ^ 48 + (seg (off + 2)).toNat * 2 ^ 40
    + (seg (off + 3)).toNat * 2 ^ 32 + (seg (off + 4)).toNat * 2 ^ 24
    + (seg (off + 5)).toNat * 2 ^ 16 + (seg (off + 6)).toNat * 2 ^ 8 + (seg (off + 7)).toNat

/-- The function `binary.BigEndian.Uint32` on the four bytes of `seg` from `off`. -/
def getUint32 (seg : Nat → UInt8) (off : Nat) : Nat :=
  (seg off).toNat * 2 ^ 24 + (seg (off + 1)).toNat * 2 ^ 16 + (seg (off + 2)).toNat * 2 ^ 8
    + (seg (off + 3)).toNat

/-- The conversion `uint64(id)` of an `int64`. -/
def toUint64 (id : Int) : Nat := (id % 2 ^ 64).toNat

/-- The conversion `int64(u)` of a `uint64`. -/
def toInt64 (u : Nat) : Int := if u < 2 ^ 63 then (u : Int) else (u : Int) - 2 ^ 64

/-- The conversion `uint32(n)` of an `int`. -/
def toUint32 (n : Nat) : Nat := n % 2 ^ 32

/-- The values of the type `int64`. -/
def isInt64 (id : Int) : Prop := -2 ^ 63 ≤ id ∧ id < 2 ^ 63

instance (id : Int) : Decidable (isInt64 id) := by unfold isInt64; infer_instance

/-- The effect of `copy(seg[off:off+len(bs)], bs)` on the pages of a segment. -/
def store (seg : Nat → UInt8) (off : Nat) (bs : List UInt8) : Nat → UInt8 :=
  fun i => if off ≤ i ∧ i < off + bs.length then bs.getD (i - off) 0 else seg i

/-- The bytes `seg[off:off+n]`, copied out. -/
def load (seg : Nat → UInt8) (off n : Nat) : List UInt8 :=
  (List.range n).map fun k => seg (off + k)

/-- Replace the pages of segment `fid`. -/
def queue.setSeg (q : queue) (fid : Nat) (seg : Nat → UInt8) : queue :=
  { q with bytes := fun f => if f = fid then seg else q.bytes f }

/-- The method `writer.mmap`: move to segment `fid+1`, create its file if it is not there
(a new file reads as zeros), extend it and map it. -/
def writer.mmap (q : queue) : queue :=
  let fid := q.w.fid + 1
  { w := { q.w with fid := fid, flag := true }
    r := q.r
    present := fun f => if f = fid then true else q.present f
    bytes := if q.present fid then q.bytes
             else fun f => if f = fid then (fun _ => 0) else q.bytes f }

/-- The method `writer.unmap`: drop the mapping and reset the offset to 0. -/
def writer.unmap (q : queue) : queue :=
  { q with w := { q.w with flag := false, offset := 0 } }

/-- The method `reader.mmap`: move to segment `fid+1` and map its file; `false` is the
error of `os.OpenFile` on a file that does not exist.  The new `fid` is kept either way. -/
def reader.mmap (q : queue) : Bool × queue :=
  let q1 : queue := { q with r := { q.r with fid := q.r.fid + 1 } }
  if q1.present q1.r.fid then (true, { q1 with r := { q1.r with flag := true } })
  else (false, q1)

/-- The method `reader.unmap`: drop the mapping, remove the file, reset the offset to 0;
`false` is the error of `os.Remove` on a file that does not exist. -/
def reader.unmap (q : queue) : Bool × queue :=
  if q.present q.r.fid then
    (true, { q with present := fun f => if f = q.r.fid then false else q.present f
                    r := { q.r with flag := false, offset := 0 } })
  else (false, q)

/-- The tail of `queue.read` once the segment is mapped: lines 150 to 180. -/
def queue.readMapped (q : queue) (roffset : Nat) : Outcome (Int × List UInt8) × queue :=
  match q.w.wmap q.r.fid with
  | none => (.err .noWriteOffset, q)
  | some woffset =>
    if roffset = woffset then (.err .notData, q)
    else if FILE_SIZE ≤ roffset then (.panic, q)
    else if q.bytes q.r.fid roffset ≠ flagV then (.err .illegal, q)
    else if FILE_SIZE < roffset + 9 then (.panic, q)
    else
      let msgId := toInt64 (getUint64 (q.bytes q.r.fid) (roffset + 1))
      if FILE_SIZE < roffset + 13 then (.panic, q)
      else
        let msgLen := getUint32 (q.bytes q.r.fid) (roffset + 9)
        if FILE_SIZE < roffset + 13 + msgLen then (.panic, q)
        else
          let msg := load (q.bytes q.r.fid) (roffset + 13) msgLen
          let q1 : queue := { q with r := { q.r with offset := q.r.offset + (1 + 8 + 4 + msgLen) } }
          if q1.r.offset = woffset ∧ q1.r.offset = FILE_SIZE then
            match reader.unmap q1 with
            | (false, q2) => (.err .io, q2)
            | (true, q2) => (.ok (msgId, msg), q2)
          else (.ok (msgId, msg), q1)

/-- The method `queue.read`. -/
def queue.read (q : queue) : Outcome (Int × List UInt8) × queue :=
  let roffset := q.r.offset
  if !q.r.flag then
    match reader.mmap q with
    | (false, q1) => (.err .notData, q1)
    | (true, q1) => q1.readMapped roffset
  else q.readMapped roffset

/-- The four stores of `queue.write` at `woffset`, lines 208 to 214; each slice
expression panics when its upper bound is beyond the mapping. -/
def queue.writeAt (q : queue) (woffset : Nat) (id : Int) (msg : List UInt8) :
    Outcome Unit × queue :=
  let msgLen := msg.length
  if FILE_SIZE < woffset + 1 then (.panic, q)
  else
    let q1 := q.setSeg q.w.fid (store (q.bytes q.w.fid) woffset [flagV])
    if FILE_SIZE < woffset + 9 then (.panic, q1)
    else
      let q2 := q1.setSeg q.w.fid (store (q1.bytes q.w.fid) (woffset + 1) (putUint64 (toUint64 id)))
      if FILE_SIZE < woffset + 13 then (.panic, q2)
      else
        let q3 := q2.setSeg q.w.fid
          (store (q2.bytes q.w.fid) (woffset + 9) (putUint32 (toUint32 msgLen)))
        if FILE_SIZE < woffset + 13 + msgLen then (.panic, q3)
        else
          let q4 := q3.setSeg q.w.fid (store (q3.bytes q.w.fid) (woffset + 13) msg)
          let offset := q4.w.offset + (1 + 8 + 4 + msgLen)
          (.ok (), { q4 with w := { q4.w with
                       offset := offset
                       wmap := fun f => if f = q4.w.fid then some offset else q4.w.wmap f } })

/-- The method `queue.write`. -/
def queue.write (q : queue) (id : Int) (msg : List UInt8) : Outcome Unit × queue :=
  let woffset := q.w.offset
  let q1 := if !q.w.flag then writer.mmap q else q
  let msgLen := msg.length
  if woffset + 1 + 4 + msgLen > FILE_SIZE then
    let q2 := writer.mmap (writer.unmap q1)
    q2.writeAt q2.w.offset id msg
  else q1.writeAt woffset id msg

/-- The record format on the spool: `flag(1) | id(8 BE) | len(4 BE) | payload(len)`,
as the four stores of `write` lay it out. -/
def encode (id : Int) (msg : List UInt8) : List UInt8 :=
  [flagV] ++ putUint64 (toUint64 id) ++ putUint32 (toUint32 msg.length) ++ msg

/-- The queue after a `write` that does not panic has stored the record at `woffset`
of the writer segment. -/
def queue.stored (q : queue) (woffset : Nat) (id : Int) (msg : List UInt8) : queue :=
  { w := { fid := q.w.fid
           offset := q.w.offset + (1 + 8 + 4 + msg.length)
           wmap := fun f => if f = q.w.fid then some (q.w.offset + (1 + 8 + 4 + msg.length))
                            else q.w.wmap f
           flag := q.w.flag }
    r := q.r
    present := q.present
    bytes := fun f => if f = q.w.fid then store (q.bytes q.w.fid) woffset (encode id msg)
                      else q.bytes f }

/-- The bytes of `seg` from `off` are the list `bs`. -/
def Holds (seg : Nat → UInt8) (off : Nat) (bs : List UInt8) : Prop :=
  ∀ k, k < bs.length → seg (off + k) = bs.getD k 0

/-- The queue after a `read` that returned a record of `n` payload bytes without
reaching the end of the segment. -/
def queue.advanced (q : queue) (n : Nat) : queue :=
  { q with r := { q.r with offset := q.r.offset + (1 + 8 + 4 + n) } }

/-- A call on the queue. -/
inductive Op where
  | write (id : Int) (msg : List UInt8)
  | read
  deriving DecidableEq

/-- What a call returned. -/
inductive Event where
  | wrote (o : Outcome Unit)
  | got (o : Outcome (Int × List UInt8))
  deriving DecidableEq

/-- Make one call. -/
def step (q : queue) : Op → Event × queue
  | .write id msg => ((.wrote (q.write id msg).1), (q.write id msg).2)
  | .read => ((.got q.read.1), q.read.2)

/-- Make the calls of `ops` one after the other: what they returned, and the queue at
the end. -/
def run (q : queue) : List Op → List Event × queue
  | [] => ([], q)
  | op :: ops => ((step q op).1 :: (run (step q op).2 ops).1, (run (step q op).2 ops).2)

/-- The contract of a first-in first-out queue, with `pending` the records written and
not yet read: every write succeeds, a read returns the oldest pending record, and a
read with nothing pending returns no-data. -/
def fifo (pending : List (Int × List UInt8)) : List Op → List Event
  | [] => []
  | .write id msg :: ops => .wrote (.ok ()) :: fifo (pending ++ [(id, msg)]) ops
  | .read :: ops =>
    match pending with
    | [] => .got (.err .notData) :: fifo [] ops
    | r :: rest => .got (.ok r) :: fifo rest ops

/-- The framed size of the records that `ops` writes: 13 bytes and the payload, each. -/
def framedSize : List Op → Nat
  | [] => 0
  | .write _ msg :: ops => 13 + msg.length + framedSize ops
  | .read :: ops => framedSize ops

/-- Every id that `ops` writes is a value of `int64`. -/
def int64Ids : List Op → Bool
  | [] => true
  | .write id _ :: ops => decide (isInt64 id) && int64Ids ops
  | .read :: ops => int64Ids ops

/-- The records on the spool, one after the other. -/
def encodeAll : List (Int × List UInt8) → List UInt8
  | [] => []
  | r :: rs => encode r.1 r.2 ++ encodeAll rs

/-- The state of a queue that has written the records `ws` into segment 1 and has
returned the first `nr` of them. -/
def Rel (ws : List (Int × List UInt8)) (nr : Nat) (q : queue) : Prop :=
  q.w.fid = 1 ∧ q.w.flag = true ∧ q.w.offset = (encodeAll ws).length ∧
  q.w.wmap 1 = some (encodeAll ws).length ∧ q.present 1 = true ∧
  Holds (q.bytes 1) 0 (encodeAll ws) ∧ nr ≤ ws.length ∧
  q.r = (if nr = 0 then ⟨0, 0, false⟩ else ⟨1, (encodeAll (ws.take nr)).length, true⟩)

/-- The records that `ops` writes, in order. -/
def writesOf : List Op → List (Int × List UInt8)
  | [] => []
  | .write id msg :: ops => (id, msg) :: writesOf ops
  | .read :: ops => writesOf ops

/-- A `read` of `q` would find the file of the next segment missing. -/
def missing (q : queue) : Bool := !q.r.flag && !q.present (q.r.fid + 1)

/-- No `read` among the calls `ops`, made one after the other from `q`, finds the
file of the next segment missing. -/
def neverMissing (q : queue) : List Op → Bool
  | [] => true
  | .write id msg :: ops => neverMissing (q.write id msg).2 ops
  | .read :: ops => !missing q && neverMissing q.read.2 ops

/-- The calls `ops` hold a write. -/
def hasWrite : List Op → Bool
  | [] => false
  | .write _ _ :: _ => true
  | .read :: ops => hasWrite ops

/-- The calls `ops` hold a read. -/
def hasRead : List Op → Bool
  | [] => false
  | .write _ _ :: ops => hasRead ops
  | .read :: _ => true

/-- The segment ids of a queue on which writes (`wrote`) and reads (`didRead`) have or
have not been made: no file is beyond the writer segment, the reader is not beyond
the writer, and each side is in a segment from 1 on once it has been used. -/
def FidInv (q : queue) (wrote didRead : Bool) : Prop :=
  (∀ f, q.present f = true → f ≤ q.w.fid) ∧ q.r.fid ≤ q.w.fid ∧
  (wrote = true → 1 ≤ q.w.fid) ∧ (q.w.flag = true → wrote = true) ∧
  (didRead = true → 1 ≤ q.r.fid) ∧ (didRead = false → q.r.fid = 0 ∧ q.r.flag = false)

/-- Calls that begin with a read of a segment that is not there yet. -/
def readFirstOps : List Op := [.read, .write 7 [1, 2, 3], .read]

/-- A run on one segment: two records, with reads before, between and after. -/
def sampleOps : List Op :=
  [.write (-7) [1, 2, 3], .read, .read, .write 9 [], .read]

/-- A payload of 209715186 bytes, which with its 13 bytes of framing fills a segment
up to its last byte. -/
def nearlyFull : List UInt8 := List.replicate 209715186 0

/-- A payload of 209715177 bytes, which with its 13 bytes of framing leaves 10 bytes
of a segment free. -/
def tenFree : List UInt8 := List.replicate 209715177 0

/-- A payload of 209715188 bytes, one more than a segment holds after the framing. -/
def oversize : List UInt8 := List.replicate 209715188 0

/-- A reader mapped on segment 1 whose first record has lost its flag byte. -/
def corruptQueue : queue :=
  { w := { fid := 1, offset := 13, wmap := fun f => if f = 1 then some 13 else none,
           flag := true }
    r := { fid := 1, offset := 0, flag := true }
    present := fun f => decide (f = 1)
    bytes := fun _ _ => 0 }

end gnode

namespace mq

/-- One second as a `time.Duration`, which counts nanoseconds in an `int64`. -/
def Second : Int := 1000000000

/-- The variable `timerDefaultDuration`. -/
def timerDefaultDuration : Int := 1 * Second

/-- The variable `timerResetDuration`. -/
def timerResetDuration : Int := 5 * Second

/-- The variable `timerSleepDuration`, 24 hours. -/
def timerSleepDuration : Int := 24 * (3600 * Second)

/-- The arithmetic of `int64`: the result wraps. -/
def wrap64 (x : Int) : Int := (x + 2 ^ 63) % 2 ^ 64 - 2 ^ 63

/-- The fields of the struct `bucket` that routing and the timer decision use;
`nextTime` is an instant in nanoseconds. -/
structure bucket where
  id : String
  jobNum : Int
  nextTime : Int
  deriving DecidableEq

/-- Modelled from the spec: the struct `JobCard`, declared outside the files at hand, a
lightweight descriptor `{id, topic, delay}` with `delay` in seconds. -/
structure JobCard where
  id : String
  topic : String
  delay : Int
  deriving DecidableEq

/-- The method `ByNum.Less`, on the two elements it compares. -/
def ByNum.Less (x y : bucket) : Bool := x.jobNum < y.jobNum

/-- One pass of the inner loop of an insertion sort: `x` goes in front of the first
element it is `Less` than. -/
def ByNum.insert (x : bucket) : List bucket → List bucket
  | [] => [x]
  | y :: ys => if ByNum.Less x y then x :: y :: ys else y :: ByNum.insert x ys

/-- The call `sort.Sort(ByNum(d.bucket))`.  The library routine is not part of the
repository; it is run here as the insertion sort over `Less` that the library uses on
short slices, the elements taken in slice order. -/
def ByNum.sort (bs : List bucket) : List bucket :=
  bs.foldl (fun acc x => ByNum.insert x acc) []

/-- Where `Dispatcher.Run` sends a card. -/
inductive Sent where
  /-- The send `d.bucket[0].recvJob <- card`, to the bucket given. -/
  | recvJob (b : bucket)
  /-- The call `AddToReadyQueue(card.id)`. -/
  | readyQueue (id : String)
  /-- The index `d.bucket[0]` out of range. -/
  | panic
  deriving DecidableEq

/-- The case `card := <-d.addToBucket` of `Dispatcher.Run`: the slice `d.bucket`
afterwards and where the card went. -/
def Dispatcher.route (bs : List bucket) (card : JobCard) : List bucket × Sent :=
  if card.delay > 0 then
    match ByNum.sort bs with
    | [] => ([], .panic)
    | b :: rest => (b :: rest, .recvJob b)
  else (bs, .readyQueue card.id)

/-- The test of `bucket.run` that decides the send on `resetTimerChan`, with
`subTime = b.nextTime.Sub(time.Now())` and `time.Duration(card.delay)`. -/
def resetTimer (subTime : Int) (card : JobCard) : Bool :=
  subTime > 0 && wrap64 (subTime - card.delay) > timerResetDuration

/-- The case `card := <-b.recvJob` of `bucket.run` at the instant `now`; `added` tells
whether `db.AddToBucket` succeeded.  The result is the bucket afterwards and whether
`resetTimerChan` was signalled. -/
def bucket.recv (b : bucket) (card : JobCard) (now : Int) (added : Bool) : bucket × Bool :=
  if !added then (b, false)
  else
    let subTime := b.nextTime - now
    ({ b with jobNum := b.jobNum + 1 }, resetTimer subTime card)

/-- One submission in the sequential model: the dispatcher routes the card and the
bucket that receives it accepts it before anything else happens.  Buckets are held
by pointer, so the increment shows in the slice. -/
def submit (bs : List bucket) (card : JobCard) : List bucket :=
  match Dispatcher.route bs card with
  | (b :: rest, .recvJob _) => (b.recv card 0 true).1 :: rest
  | (bs1, _) => bs1

/-- A run of submissions, one after the other. -/
def submitAll (bs : List bucket) (cards : List JobCard) : List bucket :=
  cards.foldl submit bs

/-- Ascending order of `jobNum`, the order `sort.Sort` leaves under `ByNum.Less`. -/
def Ascending (l : List bucket) : Prop := l.Pairwise fun a b => a.jobNum ≤ b.jobNum

/-- The sum of the `jobNum` of the buckets. -/
def totalJobs (bs : List bucket) : Int := (bs.map fun b => b.jobNum).sum

/-- Every bucket holds `a` or `a + 1` jobs. -/
def Balanced (a : Int) (bs : List bucket) : Prop :=
  ∀ b ∈ bs, b.jobNum = a ∨ b.jobNum = a + 1

end mq

namespace gnode

/-! ## The record format -/

theorem store_append (seg : Nat → UInt8) (off : Nat) (a b : List UInt8) :
    store (store seg off a) (off + a.length) b = store seg off (a ++ b) := by
  funext i
  simp only [store, List.length_append]
  by_cases h1 : off + a.length ≤ i ∧ i < off + a.length + b.length
  · have h2 : off ≤ i ∧ i < off + (a.length + b.length) := by omega
    rw [if_pos h1, if_pos h2]
    rw [List.getD_append_right _ _ _ _ (by omega)]
    congr 1
    omega
  · rw [if_neg h1]
    by_cases h3 : off ≤ i ∧ i < off + a.length
    · have h2 : off ≤ i ∧ i < off + (a.length + b.length) := by omega
      rw [if_pos h3, if_pos h2]
      rw [List.getD_append _ _ _ _ (by omega)]
    · have h2 : ¬ (off ≤ i ∧ i < off + (a.length + b.length)) := by omega
      rw [if_neg h3, if_neg h2]

theorem encode_length (id : Int) (msg : List UInt8) :
    (encode id msg).length = 13 + msg.length := by
  simp [encode, putUint64, putUint32]; omega

theorem writeAt_ok (q : queue) (woffset : Nat) (id : Int) (msg : List UInt8)
    (h : woffset + 13 + msg.length ≤ FILE_SIZE) :
    q.writeAt woffset id msg = (Outcome.ok (), q.stored woffset id msg) := by
  have e1 : ¬ FILE_SIZE < woffset + 1 := by omega
  have e2 : ¬ FILE_SIZE < woffset + 9 := by omega
  have e3 : ¬ FILE_SIZE < woffset + 13 := by omega
  have e4 : ¬ FILE_SIZE < woffset + 13 + msg.length := by omega
  simp only [queue.writeAt, if_neg e1, if_neg e2, if_neg e3, if_neg e4, queue.stored,
    queue.setSeg]
  simp only [if_true]
  congr 2
  funext f
  by_cases hf : f = q.w.fid
  · simp only [if_pos hf]
    have s1 := store_append (q.bytes q.w.fid) woffset [flagV] (putUint64 (toUint64 id))
    have s2 := store_append (q.bytes q.w.fid) woffset ([flagV] ++ putUint64 (toUint64 id))
      (putUint32 (toUint32 msg.length))
    have s3 := store_append (q.bytes q.w.fid) woffset
      ([flagV] ++ putUint64 (toUint64 id) ++ putUint32 (toUint32 msg.length)) msg
    simp only [List.length_append, List.length_singleton, putUint64, putUint32,
      List.length_cons, List.length_nil] at s1 s2 s3
    simp only [encode, putUint64, putUint32]
    rw [← s3, ← s2, ← s1]
  · simp only [if_neg hf]

theorem byte_toNat_ofNat (n : Nat) : (UInt8.ofNat n).toNat = n % 256 := rfl

theorem toInt64_toUint64 (id : Int) (h : isInt64 id) : toInt64 (toUint64 id) = id := by
  unfold isInt64 at h
  unfold toInt64 toUint64
  split <;> omega

theorem toUint64_lt (id : Int) : toUint64 id < 2 ^ 64 := by
  unfold toUint64
  omega

theorem Holds.flag {seg : Nat → UInt8} {off : Nat} {id : Int} {msg : List UInt8}
    (h : Holds seg off (encode id msg)) : seg off = flagV := by
  have := h 0 (by rw [encode_length]; omega)
  simpa [encode] using this

theorem Holds.id {seg : Nat → UInt8} {off : Nat} {id : Int} {msg : List UInt8}
    (h : Holds seg off (encode id msg)) : getUint64 seg (off + 1) = toUint64 id := by
  have hl : ∀ k, k < 13 → k < (encode id msg).length := by
    intro k hk; rw [encode_length]; omega
  have h1 := h 1 (hl 1 (by omega))
  have h2 := h 2 (hl 2 (by omega))
  have h3 := h 3 (hl 3 (by omega))
  have h4 := h 4 (hl 4 (by omega))
  have h5 := h 5 (hl 5 (by omega))
  have h6 := h 6 (hl 6 (by omega))
  have h7 := h 7 (hl 7 (by omega))
  have h8 := h 8 (hl 8 (by omega))
  simp only [encode, putUint64, putUint32, List.singleton_append, List.cons_append,
    List.nil_append, List.getD_cons_succ, List.getD_cons_zero] at h1 h2 h3 h4 h5 h6 h7 h8
  have hv := toUint64_lt id
  simp only [getUint64, Nat.add_assoc, Nat.reduceAdd, h1, h2, h3, h4, h5, h6, h7, h8,
    byte_toNat_ofNat]
  omega

theorem Holds.len {seg : Nat → UInt8} {off : Nat} {id : Int} {msg : List UInt8}
    (h : Holds seg off (encode id msg)) : getUint32 seg (off + 9) = toUint32 msg.length := by
  have hl : ∀ k, k < 13 → k < (encode id msg).length := by
    intro k hk; rw [encode_length]; omega
  have h9 := h 9 (hl 9 (by omega))
  have h10 := h 10 (hl 10 (by omega))
  have h11 := h 11 (hl 11 (by omega))
  have h12 := h 12 (hl 12 (by omega))
  simp only [encode, putUint64, putUint32, List.singleton_append, List.cons_append,
    List.nil_append, List.getD_cons_succ, List.getD_cons_zero] at h9 h10 h11 h12
  simp only [getUint32, Nat.add_assoc, Nat.reduceAdd, h9, h10, h11, h12, byte_toNat_ofNat]
  unfold toUint32
  omega

theorem Holds.payload {seg : Nat → UInt8} {off : Nat} {id : Int} {msg : List UInt8}
    (h : Holds seg off (encode id msg)) : load seg (off + 13) msg.length = msg := by
  apply List.ext_getElem
  · simp [load]
  · intro k h1 h2
    have hk := h (13 + k) (by rw [encode_length]; omega)
    have e : (encode id msg).getD (13 + k) 0 = msg[k] := by
      have : encode id msg
          = ([flagV] ++ putUint64 (toUint64 id) ++ putUint32 (toUint32 msg.length)) ++ msg := rfl
      rw [this, List.getD_append_right _ _ _ _ (by simp [putUint64, putUint32])]
      simp [putUint64, putUint32, List.getElem?_eq_getElem h2]
    simp only [load, List.getElem_map, List.getElem_range]
    rw [← e, ← hk]
    congr 1
    omega

theorem readMapped_ok (q : queue) (woffset : Nat) (id : Int) (msg : List UInt8)
    (hw : q.w.wmap q.r.fid = some woffset) (hne : q.r.offset ≠ woffset)
    (hfit : q.r.offset + 13 + msg.length ≤ FILE_SIZE) (hlen : msg.length < 2 ^ 32)
    (hid : isInt64 id)
    (hrec : Holds (q.bytes q.r.fid) q.r.offset (encode id msg))
    (hend : ¬ (q.r.offset + 13 + msg.length = woffset ∧
      q.r.offset + 13 + msg.length = FILE_SIZE)) :
    q.readMapped q.r.offset = (Outcome.ok (id, msg), q.advanced msg.length) := by
  have e0 : ¬ FILE_SIZE ≤ q.r.offset := by omega
  have e1 : ¬ FILE_SIZE < q.r.offset + 9 := by omega
  have e2 : ¬ FILE_SIZE < q.r.offset + 13 := by omega
  have e3 : ¬ FILE_SIZE < q.r.offset + 13 + msg.length := by omega
  have e4 : ¬ (q.r.offset + (1 + 8 + 4 + msg.length) = woffset ∧
      q.r.offset + (1 + 8 + 4 + msg.length) = FILE_SIZE) := by omega
  have hl : getUint32 (q.bytes q.r.fid) (q.r.offset + 9) = msg.length := by
    rw [hrec.len]; unfold toUint32; omega
  simp only [queue.readMapped, hw, if_neg hne, if_neg e0, hrec.flag, ne_eq, not_true_eq_false,
    if_false, if_neg e1, if_neg e2, hl, if_neg e3, hrec.id, toInt64_toUint64 id hid,
    hrec.payload, if_neg e4, queue.advanced]

/-! ## The three ways a `write` proceeds, and the two ways it panics -/

theorem write_eq_mapped (q : queue) (id : Int) (msg : List UInt8)
    (hflag : q.w.flag = true) (hfit : q.w.offset + 13 + msg.length ≤ FILE_SIZE) :
    q.write id msg = (Outcome.ok (), q.stored q.w.offset id msg) := by
  have e : ¬ q.w.offset + 1 + 4 + msg.length > FILE_SIZE := by omega
  simp only [queue.write, hflag, Bool.not_true, Bool.false_eq_true, if_false, if_neg e]
  exact writeAt_ok q q.w.offset id msg hfit

theorem write_eq_unmapped (q : queue) (id : Int) (msg : List UInt8)
    (hflag : q.w.flag = false) (hfit : q.w.offset + 13 + msg.length ≤ FILE_SIZE) :
    q.write id msg = (Outcome.ok (), (writer.mmap q).stored q.w.offset id msg) := by
  have e : ¬ q.w.offset + 1 + 4 + msg.length > FILE_SIZE := by omega
  simp only [queue.write, hflag, Bool.not_false, if_true, if_neg e]
  exact writeAt_ok (writer.mmap q) q.w.offset id msg hfit

theorem write_eq_roll (q : queue) (id : Int) (msg : List UInt8)
    (hflag : q.w.flag = true) (hroll : q.w.offset + 1 + 4 + msg.length > FILE_SIZE)
    (hfit : 13 + msg.length ≤ FILE_SIZE) :
    q.write id msg = (Outcome.ok (), (writer.mmap (writer.unmap q)).stored 0 id msg) := by
  simp only [queue.write, hflag, Bool.not_true, Bool.false_eq_true, if_false, if_pos hroll]
  have h0 : (writer.mmap (writer.unmap q)).w.offset = 0 := rfl
  rw [h0]
  exact writeAt_ok _ 0 id msg (by omega)

theorem writeAt_panic (q : queue) (woffset : Nat) (id : Int) (msg : List UInt8)
    (h : FILE_SIZE < woffset + 13 + msg.length) :
    (q.writeAt woffset id msg).1 = Outcome.panic ∧
    (q.writeAt woffset id msg).2.w = q.w := by
  unfold queue.writeAt
  simp only [queue.setSeg]
  split_ifs <;> exact ⟨rfl, rfl⟩

theorem write_panic_of_oversize (q : queue) (id : Int) (msg : List UInt8)
    (h : msg.length > FILE_SIZE - 13) : (q.write id msg).1 = Outcome.panic := by
  unfold queue.write
  simp only
  split_ifs
  · exact (writeAt_panic _ _ id msg (by
      have : (writer.mmap (writer.unmap (writer.mmap q))).w.offset = 0 := rfl
      rw [this]; unfold FILE_SIZE at *; omega)).1
  · exact (writeAt_panic _ _ id msg (by
      have : (writer.mmap (writer.unmap q)).w.offset = 0 := rfl
      rw [this]; unfold FILE_SIZE at *; omega)).1
  · exact (writeAt_panic _ _ id msg (by unfold FILE_SIZE at *; omega)).1
  · exact (writeAt_panic _ _ id msg (by unfold FILE_SIZE at *; omega)).1

theorem write_gap_panic (q : queue) (id : Int) (msg : List UInt8)
    (hflag : q.w.flag = true) (hno : q.w.offset + 1 + 4 + msg.length ≤ FILE_SIZE)
    (hgap : FILE_SIZE < q.w.offset + 13 + msg.length) :
    (q.write id msg).1 = Outcome.panic ∧ (q.write id msg).2.w = q.w := by
  have e : ¬ q.w.offset + 1 + 4 + msg.length > FILE_SIZE := by omega
  simp only [queue.write, hflag, Bool.not_true, Bool.false_eq_true, if_false, if_neg e]
  exact writeAt_panic q q.w.offset id msg hgap

theorem holds_store (seg : Nat → UInt8) (off : Nat) (bs : List UInt8) :
    Holds (store seg off bs) off bs := by
  intro k hk
  have : off ≤ off + k ∧ off + k < off + bs.length := by omega
  simp only [store, if_pos this, Nat.add_sub_cancel_left]

theorem read_eq_mapped (q : queue) (hflag : q.r.flag = true) :
    q.read = q.readMapped q.r.offset := by
  simp [queue.read, hflag]

theorem read_eq_unmapped (q : queue) (hflag : q.r.flag = false)
    (hp : q.present (q.r.fid + 1) = true) :
    q.read = queue.readMapped
      { q with r := { q.r with fid := q.r.fid + 1, flag := true } } q.r.offset := by
  simp [queue.read, hflag, reader.mmap, hp]

/-! ## The spool queue: single calls -/

/-- C6: when the reader has its segment mapped, `wmap` holds an offset for it other
than the read offset, and the byte at the read offset is not `'v'`, `read` returns
the illegal-record error and the whole state (segment id, read offset, mapping,
files) is as before, so that a second `read` gives the same result. -/
theorem read_corrupt (q : queue) (woffset : Nat)
    (hflag : q.r.flag = true) (hw : q.w.wmap q.r.fid = some woffset)
    (hne : q.r.offset ≠ woffset) (hin : q.r.offset < FILE_SIZE)
    (hbyte : q.bytes q.r.fid q.r.offset ≠ flagV) :
    q.read = (Outcome.err Err.illegal, q) ∧ q.read.2.read = q.read := by
  have h : q.read = (Outcome.err Err.illegal, q) := by
    simp [queue.read, queue.readMapped, hflag, hw, hne, Nat.not_le.mpr hin, hbyte]
  exact ⟨h, by rw [h]; exact h⟩

theorem read_corrupt_witness :
    corruptQueue.r.flag = true ∧ corruptQueue.w.wmap corruptQueue.r.fid = some 13 ∧
    corruptQueue.r.offset ≠ 13 ∧ corruptQueue.r.offset < FILE_SIZE ∧
    corruptQueue.bytes corruptQueue.r.fid corruptQueue.r.offset ≠ flagV ∧
    (corruptQueue.read = (Outcome.err Err.illegal, corruptQueue) ∧
      corruptQueue.read.2.read = corruptQueue.read) :=
  ⟨rfl, rfl, by decide, by decide, by decide,
    read_corrupt corruptQueue 13 rfl rfl (by decide) (by decide) (by decide)⟩

/-! ## The segment ids -/

theorem writeAt_frame (q : queue) (woffset : Nat) (id : Int) (msg : List UInt8) :
    (q.writeAt woffset id msg).2.w.fid = q.w.fid ∧
    (q.writeAt woffset id msg).2.w.flag = q.w.flag ∧
    (q.writeAt woffset id msg).2.present = q.present ∧
    (q.writeAt woffset id msg).2.r = q.r := by
  unfold queue.writeAt
  simp only [queue.setSeg]
  split_ifs <;> exact ⟨rfl, rfl, rfl, rfl⟩

theorem write_fid (q : queue) (id : Int) (msg : List UInt8) (wrote didRead : Bool)
    (h : FidInv q wrote didRead) : FidInv (q.write id msg).2 true didRead := by
  obtain ⟨h1, h2, h3, h4, h5, h6⟩ := h
  have key : ∀ (q1 : queue) (o : Nat), (∀ f, q1.present f = true → f ≤ q1.w.fid) →
      q1.r = q.r → q.w.fid ≤ q1.w.fid → 1 ≤ q1.w.fid →
      FidInv (q1.writeAt o id msg).2 true didRead := by
    intro q1 o a1 a2 a3 a4
    obtain ⟨f1, f2, f3, f4⟩ := writeAt_frame q1 o id msg
    refine ⟨?_, ?_, ?_, fun _ => rfl, ?_, ?_⟩
    · rw [f3, f1]; exact a1
    · rw [f4, f1, a2]; omega
    · intro _; rw [f1]; exact a4
    · rw [f4, a2]; exact h5
    · rw [f4, a2]; exact h6
  have hm : ∀ q0 : queue, (∀ f, q0.present f = true → f ≤ q0.w.fid) →
      ∀ f, (writer.mmap q0).present f = true → f ≤ (writer.mmap q0).w.fid := by
    intro q0 a f hf
    simp only [writer.mmap] at hf ⊢
    split at hf
    · omega
    · have := a f hf; omega
  unfold queue.write
  simp only
  by_cases hfl : q.w.flag = true
  · have hw1 : 1 ≤ q.w.fid := h3 (h4 hfl)
    simp only [hfl, Bool.not_true, Bool.false_eq_true, if_false]
    split_ifs
    · exact key _ _ (hm (writer.unmap q) h1) rfl
        (by show q.w.fid ≤ q.w.fid + 1; omega) (by show 1 ≤ q.w.fid + 1; omega)
    · exact key q _ h1 rfl (le_refl _) hw1
  · have hfl2 : q.w.flag = false := by simpa using hfl
    simp only [hfl2, Bool.not_false, if_true]
    split_ifs
    · exact key _ _ (hm (writer.unmap (writer.mmap q)) (hm q h1)) rfl
        (by show q.w.fid ≤ q.w.fid + 1 + 1; omega) (by show 1 ≤ q.w.fid + 1 + 1; omega)
    · exact key _ _ (hm q h1) rfl
        (by show q.w.fid ≤ q.w.fid + 1; omega) (by show 1 ≤ q.w.fid + 1; omega)

theorem reader_unmap_frame (q : queue) :
    (reader.unmap q).2.w = q.w ∧ (reader.unmap q).2.r.fid = q.r.fid ∧
    (∀ f, (reader.unmap q).2.present f = true → q.present f = true) := by
  unfold reader.unmap
  split
  · refine ⟨rfl, rfl, ?_⟩
    intro f hf
    simp only at hf
    split at hf
    · exact absurd hf (by simp)
    · exact hf
  · exact ⟨rfl, rfl, fun _ h => h⟩

theorem readMapped_fid (q : queue) (roffset : Nat) :
    (q.readMapped roffset).2.w = q.w ∧ (q.readMapped roffset).2.r.fid = q.r.fid ∧
    (∀ f, (q.readMapped roffset).2.present f = true → q.present f = true) := by
  unfold queue.readMapped
  split
  · exact ⟨rfl, rfl, fun _ h => h⟩
  · split
    · exact ⟨rfl, rfl, fun _ h => h⟩
    · split
      · exact ⟨rfl, rfl, fun _ h => h⟩
      · split
        · exact ⟨rfl, rfl, fun _ h => h⟩
        · split
          · exact ⟨rfl, rfl, fun _ h => h⟩
          · dsimp only
            split
            · exact ⟨rfl, rfl, fun _ h => h⟩
            · split
              · exact ⟨rfl, rfl, fun _ h => h⟩
              · split
                · have hu := reader_unmap_frame
                    { q with r := { q.r with offset := q.r.offset
                        + (1 + 8 + 4 + getUint32 (q.bytes q.r.fid) (roffset + 9)) } }
                  split
                  · rename_i q2 heq
                    rw [heq] at hu
                    exact hu
                  · rename_i q2 heq
                    rw [heq] at hu
                    exact hu
                · exact ⟨rfl, rfl, fun _ h => h⟩

theorem read_fid (q : queue) (wrote didRead : Bool) (h : FidInv q wrote didRead)
    (hm : missing q = false) : FidInv q.read.2 wrote true := by
  obtain ⟨h1, h2, h3, h4, h5, h6⟩ := h
  by_cases hfl : q.r.flag = true
  · have hd : didRead = true := by
      cases didRead with
      | true => rfl
      | false => have := (h6 rfl).2; rw [hfl] at this; exact absurd this (by simp)
    rw [read_eq_mapped q hfl]
    obtain ⟨f1, f2, f3⟩ := readMapped_fid q q.r.offset
    refine ⟨?_, ?_, ?_, ?_, ?_, ?_⟩
    · intro f hf; rw [f1]; exact h1 f (f3 f hf)
    · rw [f1, f2]; exact h2
    · rw [f1]; exact h3
    · rw [f1]; exact h4
    · intro _; rw [f2]; exact h5 hd
    · intro hc; exact absurd hc (by simp)
  · have hfl2 : q.r.flag = false := by simpa using hfl
    have hp : q.present (q.r.fid + 1) = true := by
      simpa [missing, hfl2] using hm
    rw [read_eq_unmapped q hfl2 hp]
    obtain ⟨f1, f2, f3⟩ := readMapped_fid
      { q with r := { q.r with fid := q.r.fid + 1, flag := true } } q.r.offset
    have hle := h1 _ hp
    refine ⟨?_, ?_, ?_, ?_, ?_, ?_⟩
    · intro f hf; rw [f1]; exact h1 f (f3 f hf)
    · rw [f1, f2]; exact hle
    · rw [f1]; exact h3
    · rw [f1]; exact h4
    · intro _; rw [f2]; show 1 ≤ q.r.fid + 1; omega
    · intro hc; exact absurd hc (by simp)

theorem run_fid (ops : List Op) :
    ∀ (q : queue) (wrote didRead : Bool), FidInv q wrote didRead →
      neverMissing q ops = true →
      FidInv (run q ops).2 (wrote || hasWrite ops) (didRead || hasRead ops) := by
  induction ops with
  | nil => intro q wrote didRead h _; simpa [run, hasWrite, hasRead] using h
  | cons op ops ih =>
    intro q wrote didRead h hn
    cases op with
    | write id msg =>
      simp only [neverMissing] at hn
      have := ih _ _ _ (write_fid q id msg wrote didRead h) hn
      simpa [run, step, hasWrite, hasRead] using this
    | read =>
      simp only [neverMissing, Bool.and_eq_true, Bool.not_eq_true'] at hn
      have := ih _ _ _ (read_fid q wrote didRead h hn.1) hn.2
      simpa [run, step, hasWrite, hasRead] using this

theorem neverMissing_append (a b : List Op) :
    ∀ q : queue, neverMissing q (a ++ b) = true → neverMissing q a = true := by
  induction a with
  | nil => intro q _; rfl
  | cons op ops ih =>
    intro q h
    cases op with
    | write id msg => exact ih _ h
    | read =>
      simp only [List.cons_append, neverMissing, Bool.and_eq_true] at h ⊢
      exact ⟨h.1, ih _ h.2⟩

/-- C5: on a fresh queue, for calls of which no `read` finds the file of the
next segment missing, after every prefix of the calls the reader is not beyond the
writer, the writer is in a segment from 1 on once a write has been made, and the
reader is in a segment from 1 on once a read has been made and in segment 0 before. -/
theorem fid_invariant (ops pre : List Op) (hn : neverMissing NewQueue ops = true)
    (hpre : pre <+: ops) :
    (run NewQueue pre).2.r.fid ≤ (run NewQueue pre).2.w.fid ∧
    (hasWrite pre = true → 1 ≤ (run NewQueue pre).2.w.fid) ∧
    (hasRead pre = true → 1 ≤ (run NewQueue pre).2.r.fid) ∧
    (hasRead pre = false → (run NewQueue pre).2.r.fid = 0) := by
  obtain ⟨post, rfl⟩ := hpre
  have h0 : FidInv NewQueue false false :=
    ⟨fun f hf => absurd hf (by simp [NewQueue]), le_refl _, fun h => absurd h (by simp),
      fun h => absurd h (by simp [NewQueue]), fun h => absurd h (by simp),
      fun _ => ⟨rfl, rfl⟩⟩
  have h := run_fid pre NewQueue false false h0 (neverMissing_append pre post NewQueue hn)
  simp only [Bool.false_or] at h
  obtain ⟨-, h2, h3, -, h5, h6⟩ := h
  exact ⟨h2, h3, h5, fun hr => (h6 hr).1⟩

theorem fid_invariant_witness :
    neverMissing NewQueue sampleOps = true ∧
    ((run NewQueue sampleOps).2.r.fid ≤ (run NewQueue sampleOps).2.w.fid ∧
     (hasWrite sampleOps = true → 1 ≤ (run NewQueue sampleOps).2.w.fid) ∧
     (hasRead sampleOps = true → 1 ≤ (run NewQueue sampleOps).2.r.fid) ∧
     (hasRead sampleOps = false → (run NewQueue sampleOps).2.r.fid = 0)) :=
  ⟨by decide, fid_invariant sampleOps sampleOps (by decide) ⟨[], List.append_nil _⟩⟩

/-- C5, where `wfid >= rfid >= 1` does not hold.  After a first call that is a write
the reader is still in segment 0.  A `read` on a fresh queue finds no segment file,
returns no-data and still moves the reader to segment 1 while the writer is in
segment 0; each such `read` moves it again, and after a write the reader looks for
segment 2, so that the record in segment 1 is not returned. -/
theorem rfid_passes_wfid :
    (run NewQueue [Op.write 7 [1, 2, 3]]).2.r.fid = 0 ∧
    (run NewQueue [Op.read]).1 = [Event.got (Outcome.err Err.notData)] ∧
    (run NewQueue [Op.read]).2.r.fid = 1 ∧ (run NewQueue [Op.read]).2.w.fid = 0 ∧
    ¬ ((run NewQueue [Op.read]).2.w.fid ≥ (run NewQueue [Op.read]).2.r.fid) ∧
    (run NewQueue readFirstOps).1
      = [.got (.err .notData), .wrote (.ok ()), .got (.err .notData)] ∧
    (run NewQueue readFirstOps).2.r.fid = 2 ∧ (run NewQueue readFirstOps).2.w.fid = 1 := by
  decide

/-! ## One segment: the queue is first-in first-out -/

theorem encodeAll_append (a b : List (Int × List UInt8)) :
    encodeAll (a ++ b) = encodeAll a ++ encodeAll b := by
  induction a with
  | nil => rfl
  | cons x xs ih => simp [encodeAll, ih]

theorem encodeAll_take_le (ws : List (Int × List UInt8)) (n : Nat) :
    (encodeAll (ws.take n)).length ≤ (encodeAll ws).length := by
  have h := encodeAll_append (ws.take n) (ws.drop n)
  rw [List.take_append_drop] at h
  rw [h, List.length_append]
  omega

theorem holds_append_left {seg : Nat → UInt8} {off : Nat} {a b : List UInt8}
    (h : Holds seg off (a ++ b)) : Holds seg off a := by
  intro k hk
  have := h k (by rw [List.length_append]; omega)
  rw [this, List.getD_append _ _ _ _ hk]

theorem holds_append_right {seg : Nat → UInt8} {off : Nat} {a b : List UInt8}
    (h : Holds seg off (a ++ b)) : Holds seg (off + a.length) b := by
  intro k hk
  have := h (a.length + k) (by rw [List.length_append]; omega)
  rw [Nat.add_assoc, this, List.getD_append_right _ _ _ _ (by omega)]
  congr 1
  omega

theorem holds_store_append {seg : Nat → UInt8} {a : List UInt8} (b : List UInt8)
    (h : Holds seg 0 a) : Holds (store seg a.length b) 0 (a ++ b) := by
  intro k hk
  rw [List.length_append] at hk
  simp only [Nat.zero_add, store]
  by_cases hka : k < a.length
  · have e : ¬ (a.length ≤ k ∧ k < a.length + b.length) := by omega
    rw [if_neg e, List.getD_append _ _ _ _ hka]
    simpa using h k hka
  · have e : a.length ≤ k ∧ k < a.length + b.length := by omega
    rw [if_pos e, List.getD_append_right _ _ _ _ (by omega)]

theorem write_first (id : Int) (msg : List UInt8) (hfit : 13 + msg.length ≤ FILE_SIZE) :
    (NewQueue.write id msg).1 = Outcome.ok () ∧ Rel [(id, msg)] 0 (NewQueue.write id msg).2 := by
  have h := write_eq_unmapped NewQueue id msg rfl (by
    show 0 + 13 + msg.length ≤ FILE_SIZE
    omega)
  rw [h]
  refine ⟨rfl, rfl, rfl, ?_, ?_, rfl, ?_, by simp, rfl⟩
  · simp [queue.stored, writer.mmap, NewQueue, encodeAll, encode_length]
  · simp [queue.stored, writer.mmap, NewQueue, encodeAll, encode_length]
  · have := holds_store (fun _ => 0) 0 (encode id msg)
    simpa [queue.stored, writer.mmap, NewQueue, encodeAll] using this

theorem write_next (ws : List (Int × List UInt8)) (nr : Nat) (q : queue) (id : Int)
    (msg : List UInt8) (hrel : Rel ws nr q)
    (hfit : (encodeAll ws).length + 13 + msg.length ≤ FILE_SIZE) :
    (q.write id msg).1 = Outcome.ok () ∧ Rel (ws ++ [(id, msg)]) nr (q.write id msg).2 := by
  obtain ⟨h1, h2, h3, h4, h5, h6, h7, h8⟩ := hrel
  have h := write_eq_mapped q id msg h2 (by rw [h3]; exact hfit)
  rw [h]
  have hl : (encodeAll (ws ++ [(id, msg)])).length = (encodeAll ws).length + (13 + msg.length) := by
    simp [encodeAll_append, encodeAll, encode_length]
  refine ⟨rfl, h1, h2, ?_, ?_, h5, ?_, ?_, ?_⟩
  · show q.w.offset + (1 + 8 + 4 + msg.length) = _
    rw [hl, h3]
  · show (if 1 = q.w.fid then some (q.w.offset + (1 + 8 + 4 + msg.length)) else q.w.wmap 1) = _
    rw [if_pos h1.symm, hl, h3]
  · show Holds (if 1 = q.w.fid then store (q.bytes q.w.fid) q.w.offset (encode id msg)
        else q.bytes 1) 0 _
    rw [if_pos h1.symm, h1, h3]
    have := holds_store_append (encode id msg) h6
    simpa [encodeAll_append, encodeAll] using this
  · rw [List.length_append]; omega
  · show q.r = _
    rw [List.take_append_of_le_length h7]
    exact h8

theorem encodeAll_middle (a b : List (Int × List UInt8)) (x : Int × List UInt8) :
    encodeAll (a ++ x :: b) = encodeAll a ++ encode x.1 x.2 ++ encodeAll b := by
  rw [encodeAll_append, List.append_assoc]
  rfl

theorem encodeAll_split (ws : List (Int × List UInt8)) (nr : Nat) (h : nr < ws.length) :
    encodeAll ws = encodeAll (ws.take nr) ++ encode ws[nr].1 ws[nr].2
      ++ encodeAll (ws.drop (nr + 1)) := by
  have e : ws.take nr ++ ws[nr] :: ws.drop (nr + 1) = ws := by
    rw [← List.drop_eq_getElem_cons h, List.take_append_drop]
  have := encodeAll_middle (ws.take nr) (ws.drop (nr + 1)) ws[nr]
  rwa [e] at this

theorem encodeAll_take_succ (ws : List (Int × List UInt8)) (nr : Nat) (h : nr < ws.length) :
    (encodeAll (ws.take (nr + 1))).length
      = (encodeAll (ws.take nr)).length + 13 + ws[nr].2.length := by
  have e : ws.take (nr + 1) = ws.take nr ++ [ws[nr]] := by
    rw [List.take_succ, List.getElem?_eq_getElem h]
    rfl
  rw [e, encodeAll_append, List.length_append]
  simp only [encodeAll, List.append_nil, encode_length]
  omega

theorem read_next (ws : List (Int × List UInt8)) (nr : Nat) (q : queue)
    (hrel : Rel ws nr q) (hnr : nr < ws.length)
    (hids : ∀ r ∈ ws, isInt64 r.1)
    (hsize : (encodeAll ws).length < FILE_SIZE) :
    q.read.1 = Outcome.ok ws[nr] ∧ Rel ws (nr + 1) q.read.2 := by
  obtain ⟨h1, h2, h3, h4, h5, h6, h7, h8⟩ := hrel
  have hsplit := encodeAll_split ws nr hnr
  have hsucc := encodeAll_take_succ ws nr hnr
  have hle := encodeAll_take_le ws (nr + 1)
  have hFS : FILE_SIZE < 2 ^ 32 := by decide
  have hrec : Holds (q.bytes 1) (encodeAll (ws.take nr)).length (encode ws[nr].1 ws[nr].2) := by
    rw [hsplit, List.append_assoc] at h6
    have := holds_append_left (holds_append_right h6)
    simpa using this
  have hid : isInt64 ws[nr].1 := hids _ (List.getElem_mem hnr)
  by_cases h0 : nr = 0
  · subst h0
    rw [if_pos rfl] at h8
    have hoff : q.r.offset = 0 := by rw [h8]
    have hfid : q.r.fid = 0 := by rw [h8]
    have hfl : q.r.flag = false := by rw [h8]
    have hrd := read_eq_unmapped q hfl (by rw [hfid]; exact h5)
    have hm := readMapped_ok
      { q with r := { q.r with fid := q.r.fid + 1, flag := true } }
      (encodeAll ws).length ws[0].1 ws[0].2
      (by show q.w.wmap (q.r.fid + 1) = _; rw [hfid]; exact h4)
      (by show q.r.offset ≠ _; rw [hoff]; simp only [List.take_zero, encodeAll,
            List.length_nil] at hsucc; omega)
      (by show q.r.offset + 13 + _ ≤ _; rw [hoff]
          simp only [List.take_zero, encodeAll, List.length_nil] at hsucc; omega)
      (by simp only [List.take_zero, encodeAll, List.length_nil] at hsucc; omega)
      hid
      (by show Holds (q.bytes (q.r.fid + 1)) q.r.offset _
          rw [hfid, hoff]; simpa [encodeAll] using hrec)
      (by show ¬ (q.r.offset + 13 + _ = _ ∧ q.r.offset + 13 + _ = FILE_SIZE)
          rw [hoff]; simp only [List.take_zero, encodeAll, List.length_nil] at hsucc; omega)
    have hoff2 : (0 : Nat) = q.r.offset := hoff.symm
    rw [hrd]
    have hm2 : queue.readMapped
        { q with r := { q.r with fid := q.r.fid + 1, flag := true } } q.r.offset
        = (Outcome.ok (ws[0].1, ws[0].2),
           queue.advanced { q with r := { q.r with fid := q.r.fid + 1, flag := true } }
             ws[0].2.length) := hm
    rw [hm2]
    refine ⟨rfl, h1, h2, h3, h4, h5, h6, hnr, ?_⟩
    show ({ fid := q.r.fid + 1, offset := q.r.offset + (1 + 8 + 4 + ws[0].2.length),
            flag := true } : reader) = _
    rw [if_neg (by omega), hsucc, hfid, hoff]
    simp only [List.take_zero, encodeAll, List.length_nil]
    congr 1
    omega
  · rw [if_neg h0] at h8
    have hoff : q.r.offset = (encodeAll (ws.take nr)).length := by rw [h8]
    have hfid : q.r.fid = 1 := by rw [h8]
    have hfl : q.r.flag = true := by rw [h8]
    have hrd := read_eq_mapped q hfl
    have hm := readMapped_ok q (encodeAll ws).length ws[nr].1 ws[nr].2
      (by rw [hfid]; exact h4) (by rw [hoff]; omega) (by rw [hoff]; omega) (by omega) hid
      (by rw [hfid, hoff]; exact hrec) (by rw [hoff]; omega)
    rw [hrd, hm]
    refine ⟨rfl, h1, h2, h3, h4, h5, h6, hnr, ?_⟩
    show ({ fid := q.r.fid, offset := q.r.offset + (1 + 8 + 4 + ws[nr].2.length),
            flag := q.r.flag } : reader) = _
    rw [if_neg (by omega), hsucc, hfid, hoff, hfl]
    congr 1
    omega

theorem read_caught_up (ws : List (Int × List UInt8)) (nr : Nat) (q : queue)
    (hrel : Rel ws nr q) (hnr : nr = ws.length) (hpos : 0 < nr) :
    q.read = (Outcome.err Err.notData, q) := by
  obtain ⟨h1, h2, h3, h4, h5, h6, h7, h8⟩ := hrel
  rw [if_neg (by omega)] at h8
  have hoff : q.r.offset = (encodeAll ws).length := by
    rw [h8, hnr, List.take_length]
  have hfid : q.r.fid = 1 := by rw [h8]
  have hfl : q.r.flag = true := by rw [h8]
  rw [read_eq_mapped q hfl]
  simp [queue.readMapped, hfid, h4, hoff]

theorem run_rel (ops : List Op) :
    ∀ (ws : List (Int × List UInt8)) (nr : Nat) (q : queue), Rel ws nr q → ws ≠ [] →
      (∀ r ∈ ws, isInt64 r.1) → int64Ids ops = true →
      (encodeAll ws).length + framedSize ops < FILE_SIZE →
      (run q ops).1 = fifo (ws.drop nr) ops ∧
      ∃ nr1, Rel (ws ++ writesOf ops) nr1 (run q ops).2 ∧
        (nr1 = 0 ↔ nr = 0 ∧ Op.read ∉ ops) := by
  induction ops with
  | nil =>
    intro ws nr q hrel _ _ _ _
    exact ⟨rfl, nr, by simpa [writesOf, run] using hrel, by simp⟩
  | cons op ops ih =>
    intro ws nr q hrel hne hids hops hsize
    cases op with
    | write id msg =>
      simp only [int64Ids, Bool.and_eq_true, decide_eq_true_eq] at hops
      simp only [framedSize] at hsize
      obtain ⟨ho, hrel1⟩ := write_next ws nr q id msg hrel (by omega)
      have hl : (encodeAll (ws ++ [(id, msg)])).length
          = (encodeAll ws).length + (13 + msg.length) := by
        simp [encodeAll_append, encodeAll, encode_length]
      obtain ⟨hev, nr1, hrel2, hz⟩ := ih (ws ++ [(id, msg)]) nr (q.write id msg).2 hrel1
        (by simp)
        (by
          intro r hr
          rcases List.mem_append.mp hr with h | h
          · exact hids r h
          · rw [List.mem_singleton.mp h]; exact hops.1)
        hops.2 (by rw [hl]; omega)
      refine ⟨?_, nr1, ?_, ?_⟩
      · simp only [run, step, fifo, ho, hev]
        rw [List.drop_append_of_le_length hrel.2.2.2.2.2.2.1]
      · simpa [run, step, writesOf] using hrel2
      · rw [hz]; simp
    | read =>
      simp only [int64Ids] at hops
      simp only [framedSize] at hsize
      by_cases hnr : nr < ws.length
      · obtain ⟨ho, hrel1⟩ := read_next ws nr q hrel hnr hids (by omega)
        obtain ⟨hev, nr1, hrel2, hz⟩ := ih ws (nr + 1) q.read.2 hrel1 hne hids hops hsize
        refine ⟨?_, nr1, ?_, ?_⟩
        · simp only [run, step, ho, hev]
          rw [List.drop_eq_getElem_cons hnr]
          rfl
        · simpa [run, step, writesOf] using hrel2
        · rw [hz]; simp
      · have hle := hrel.2.2.2.2.2.2.1
        have heq : nr = ws.length := by omega
        have hpos : 0 < nr := by
          rw [heq]; exact List.length_pos.mpr hne
        have ho := read_caught_up ws nr q hrel heq hpos
        have hrel1 : Rel ws nr q.read.2 := by rw [ho]; exact hrel
        obtain ⟨hev, nr1, hrel2, hz⟩ := ih ws nr q.read.2 hrel1 hne hids hops hsize
        refine ⟨?_, nr1, ?_, ?_⟩
        · simp only [run, step, hev]
          rw [ho, heq, List.drop_length]
          rfl
        · simpa [run, step, writesOf] using hrel2
        · rw [hz]
          constructor
          · intro h; omega
          · intro h; omega

theorem writesOf_ids (ops : List Op) (h : int64Ids ops = true) :
    ∀ r ∈ writesOf ops, isInt64 r.1 := by
  induction ops with
  | nil => intro r hr; simp [writesOf] at hr
  | cons op ops ih =>
    intro r hr
    cases op with
    | write id msg =>
      simp only [int64Ids, Bool.and_eq_true, decide_eq_true_eq] at h
      simp only [writesOf, List.mem_cons] at hr
      rcases hr with rfl | hr
      · exact h.1
      · exact ih h.2 r hr
    | read => exact ih h r hr

theorem encodeAll_writesOf (ops : List Op) :
    (encodeAll (writesOf ops)).length = framedSize ops := by
  induction ops with
  | nil => rfl
  | cons op ops ih =>
    cases op with
    | write id msg =>
      simp only [writesOf, framedSize, encodeAll, List.length_append, encode_length, ih]
    | read => simpa [writesOf, framedSize] using ih

theorem run_fresh (id0 : Int) (msg0 : List UInt8) (rest : List Op)
    (hids : int64Ids (Op.write id0 msg0 :: rest) = true)
    (hsize : framedSize (Op.write id0 msg0 :: rest) < FILE_SIZE) :
    (run NewQueue (Op.write id0 msg0 :: rest)).1 = fifo [] (Op.write id0 msg0 :: rest) ∧
    ∃ nr, Rel (writesOf (Op.write id0 msg0 :: rest)) nr
        (run NewQueue (Op.write id0 msg0 :: rest)).2 ∧
      (nr = 0 ↔ Op.read ∉ Op.write id0 msg0 :: rest) := by
  simp only [int64Ids, Bool.and_eq_true, decide_eq_true_eq] at hids
  simp only [framedSize] at hsize
  obtain ⟨ho, hrel⟩ := write_first id0 msg0 (by omega)
  have hl : (encodeAll [(id0, msg0)]).length = 13 + msg0.length := by
    simp [encodeAll, encode_length]
  obtain ⟨hev, nr1, hrel2, hz⟩ := run_rel rest [(id0, msg0)] 0 _ hrel (by simp)
    (by intro r hr; rw [List.mem_singleton.mp hr]; exact hids.1) hids.2 (by rw [hl]; omega)
  refine ⟨?_, nr1, ?_, ?_⟩
  · simp only [run, step, fifo, ho, hev, List.drop_zero, List.nil_append]
  · simpa [run, step, writesOf] using hrel2
  · rw [hz]; simp

theorem int64Ids_append (a b : List Op) :
    int64Ids (a ++ b) = (int64Ids a && int64Ids b) := by
  induction a with
  | nil => simp [int64Ids]
  | cons op ops ih => cases op <;> simp [int64Ids, ih, Bool.and_assoc]

theorem framedSize_append (a b : List Op) :
    framedSize (a ++ b) = framedSize a + framedSize b := by
  induction a with
  | nil => simp [framedSize]
  | cons op ops ih =>
    cases op with
    | write id msg => simp [framedSize, ih]; omega
    | read => simp [framedSize, ih]

/-- C10: on a fresh queue, for calls that begin with a write, whose ids are
`int64` values and whose records take less than `FILE_SIZE` bytes with their framing,
after every non-empty prefix `pre` of the calls: the results so far are those of a
first-in first-out queue (every write succeeds, the k-th successful read returns the
k-th record written, a read with unread records succeeds, a read with none returns
no-data); the writer is in segment 1 and the reader in segment 1 once a read has
been made and in segment 0 before; the read offset is at most the write offset, which
`wmap[1]` records and which is the framed size written; and a `read` made now that
returns no-data leaves the whole state as it is. -/
theorem single_segment_fifo (id0 : Int) (msg0 : List UInt8) (rest pre : List Op)
    (hids : int64Ids (Op.write id0 msg0 :: rest) = true)
    (hsize : framedSize (Op.write id0 msg0 :: rest) < FILE_SIZE)
    (hpre : pre <+: Op.write id0 msg0 :: rest) (hne : pre ≠ []) :
    (run NewQueue pre).1 = fifo [] pre ∧
    (run NewQueue pre).2.w.fid = 1 ∧
    (run NewQueue pre).2.r.fid = (if Op.read ∈ pre then 1 else 0) ∧
    (run NewQueue pre).2.r.offset ≤ (run NewQueue pre).2.w.offset ∧
    (run NewQueue pre).2.w.wmap 1 = some (run NewQueue pre).2.w.offset ∧
    (run NewQueue pre).2.w.offset = framedSize pre ∧
    ((run NewQueue pre).2.read.1 = Outcome.err Err.notData →
      (run NewQueue pre).2.read.2 = (run NewQueue pre).2) := by
  obtain ⟨post, hpost⟩ := hpre
  cases pre with
  | nil => exact absurd rfl hne
  | cons op pre1 =>
    have hop : op = Op.write id0 msg0 := by
      have := List.head_eq_of_cons_eq hpost
      exact this
    subst hop
    have hrest : pre1 ++ post = rest := List.tail_eq_of_cons_eq hpost
    have hids1 : int64Ids (Op.write id0 msg0 :: pre1) = true := by
      rw [← hrest] at hids
      simp only [int64Ids, int64Ids_append, Bool.and_eq_true] at hids ⊢
      exact ⟨hids.1, hids.2.1⟩
    have hsize1 : framedSize (Op.write id0 msg0 :: pre1) < FILE_SIZE := by
      rw [← hrest] at hsize
      simp only [framedSize, framedSize_append] at hsize ⊢
      omega
    obtain ⟨hev, nr, hrel, hz⟩ := run_fresh id0 msg0 pre1 hids1 hsize1
    have hlen := encodeAll_writesOf (Op.write id0 msg0 :: pre1)
    have hidsw := writesOf_ids (Op.write id0 msg0 :: pre1) hids1
    have hws : writesOf (Op.write id0 msg0 :: pre1) ≠ [] := by simp [writesOf]
    have hrel0 := hrel
    obtain ⟨h1, h2, h3, h4, h5, h6, h7, h8⟩ := hrel
    have htk := encodeAll_take_le (writesOf (Op.write id0 msg0 :: pre1)) nr
    refine ⟨hev, h1, ?_, ?_, ?_, ?_, ?_⟩
    · by_cases hr : Op.read ∈ Op.write id0 msg0 :: pre1
      · have : nr ≠ 0 := fun h => (hz.mp h) hr
        rw [if_pos hr, h8, if_neg this]
      · have : nr = 0 := hz.mpr hr
        rw [if_neg hr, h8, if_pos this]
    · rw [h8, h3]
      split
      · exact Nat.zero_le _
      · exact htk
    · rw [h4, h3]
    · rw [h3, hlen]
    · intro hnd
      by_cases hnr : nr < (writesOf (Op.write id0 msg0 :: pre1)).length
      · obtain ⟨ho, _⟩ := read_next _ nr _ hrel0 hnr hidsw (by rw [hlen]; exact hsize1)
        rw [ho] at hnd
        exact absurd hnd (by simp)
      · have heq : nr = (writesOf (Op.write id0 msg0 :: pre1)).length := by omega
        have hpos : 0 < nr := by rw [heq]; exact List.length_pos.mpr hws
        rw [read_caught_up _ nr _ hrel0 heq hpos]

theorem single_segment_fifo_witness :
    int64Ids sampleOps = true ∧ framedSize sampleOps < FILE_SIZE ∧
    (run NewQueue sampleOps).1 =
      [.wrote (.ok ()), .got (.ok (-7, [1, 2, 3])), .got (.err .notData),
       .wrote (.ok ()), .got (.ok (9, []))] ∧
    ((run NewQueue sampleOps).1 = fifo [] sampleOps ∧
     (run NewQueue sampleOps).2.w.fid = 1 ∧
     (run NewQueue sampleOps).2.r.fid = (if Op.read ∈ sampleOps then 1 else 0) ∧
     (run NewQueue sampleOps).2.r.offset ≤ (run NewQueue sampleOps).2.w.offset ∧
     (run NewQueue sampleOps).2.w.wmap 1 = some (run NewQueue sampleOps).2.w.offset ∧
     (run NewQueue sampleOps).2.w.offset = framedSize sampleOps ∧
     ((run NewQueue sampleOps).2.read.1 = Outcome.err Err.notData →
       (run NewQueue sampleOps).2.read.2 = (run NewQueue sampleOps).2)) :=
  ⟨by decide, by decide, by decide,
    single_segment_fifo (-7) [1, 2, 3] [.read, .read, .write 9 [], .read] sampleOps
      (by decide) (by decide) ⟨[], List.append_nil _⟩ (by decide)⟩

/-- C10, where `wfid = rfid = 1` does not hold: between the first write and the first
read the writer is in segment 1 and the reader still in segment 0. -/
theorem rfid_zero_before_first_read :
    int64Ids [Op.write 7 [1, 2, 3]] = true ∧
    framedSize [Op.write 7 [1, 2, 3]] < FILE_SIZE ∧
    (run NewQueue [Op.write 7 [1, 2, 3]]).2.r.fid = 0 ∧
    ¬ ((run NewQueue [Op.write 7 [1, 2, 3]]).2.w.fid = 1 ∧
       (run NewQueue [Op.write 7 [1, 2, 3]]).2.r.fid = 1) := by
  decide

/-! ## The defects, at inputs of the size of a segment -/

theorem rollover_scenario (p : List UInt8) (hp : p.length = 209715186) :
    (NewQueue.write 1 p).1 = Outcome.ok () ∧
    (NewQueue.write 1 p).2.w.fid = 1 ∧
    (NewQueue.write 1 p).2.w.offset = 209715199 ∧
    ((NewQueue.write 1 p).2.write 2 []).1 = Outcome.ok () ∧
    ((NewQueue.write 1 p).2.write 2 []).2.w.fid = 2 ∧
    ((NewQueue.write 1 p).2.write 2 []).2.w.offset = 13 ∧
    ((NewQueue.write 1 p).2.write 2 []).2.w.wmap 1 = some 209715199 ∧
    ((NewQueue.write 1 p).2.write 2 []).2.read.1 = Outcome.ok (1, p) ∧
    ((NewQueue.write 1 p).2.write 2 []).2.read.2.r = ⟨1, 209715199, true⟩ ∧
    ((NewQueue.write 1 p).2.write 2 []).2.read.2.present 1 = true ∧
    ((NewQueue.write 1 p).2.write 2 []).2.read.2.present 2 = true ∧
    ((NewQueue.write 1 p).2.write 2 []).2.read.2.read.1 = Outcome.err Err.notData ∧
    ((NewQueue.write 1 p).2.write 2 []).2.read.2.read.2.r = ⟨1, 209715199, true⟩ ∧
    ((NewQueue.write 1 p).2.write 2 []).2.read.2.read.2.read.1
      = Outcome.err Err.notData := by
  have w1 : NewQueue.write 1 p = (Outcome.ok (), (writer.mmap NewQueue).stored 0 1 p) :=
    write_eq_unmapped NewQueue 1 p rfl (by
      show 0 + 13 + p.length ≤ FILE_SIZE
      rw [hp]; decide)
  rw [w1]
  have w2 : ((writer.mmap NewQueue).stored 0 1 p).write 2 []
      = (Outcome.ok (),
          (writer.mmap (writer.unmap ((writer.mmap NewQueue).stored 0 1 p))).stored 0 2 []) :=
    write_eq_roll _ 2 [] rfl (by
      show (0 + (1 + 8 + 4 + p.length)) + 1 + 4 + 0 > FILE_SIZE
      rw [hp]; decide) (by decide)
  rw [w2]
  have r1 : queue.read
        ((writer.mmap (writer.unmap ((writer.mmap NewQueue).stored 0 1 p))).stored 0 2 [])
      = (Outcome.ok (1, p), queue.advanced
          { (writer.mmap (writer.unmap ((writer.mmap NewQueue).stored 0 1 p))).stored 0 2 []
            with r := ⟨1, 0, true⟩ } p.length) := by
    rw [read_eq_unmapped _ rfl (by simp [queue.stored, writer.mmap, writer.unmap, NewQueue])]
    refine readMapped_ok _ 209715199 1 p ?_ ?_ ?_ ?_ ?_ ?_ ?_
    · simp [queue.stored, writer.mmap, writer.unmap, NewQueue, hp]
    · simp [queue.stored, writer.mmap, writer.unmap, NewQueue]
    · show 0 + 13 + p.length ≤ FILE_SIZE
      rw [hp]; decide
    · rw [hp]; decide
    · decide
    · have := holds_store (fun _ => 0) 0 (encode 1 p)
      simpa [queue.stored, writer.mmap, writer.unmap, NewQueue] using this
    · show ¬ (0 + 13 + p.length = 209715199 ∧ 0 + 13 + p.length = FILE_SIZE)
      rw [hp]; decide
  rw [r1]
  have r2 : queue.read (queue.advanced
          { (writer.mmap (writer.unmap ((writer.mmap NewQueue).stored 0 1 p))).stored 0 2 []
            with r := ⟨1, 0, true⟩ } p.length)
      = (Outcome.err Err.notData, queue.advanced
          { (writer.mmap (writer.unmap ((writer.mmap NewQueue).stored 0 1 p))).stored 0 2 []
            with r := ⟨1, 0, true⟩ } p.length) := by
    rw [read_eq_mapped _ rfl]
    simp [queue.readMapped, queue.advanced, queue.stored, writer.mmap, writer.unmap,
      NewQueue, hp]
  refine ⟨rfl, rfl, ?_, rfl, rfl, rfl, ?_, rfl, ?_, ?_, ?_, ?_, ?_, ?_⟩
  · simp [queue.stored, writer.mmap, NewQueue, hp]
  · simp [queue.stored, writer.mmap, writer.unmap, NewQueue, hp]
  · simp [queue.advanced, hp]
  · simp [queue.advanced, queue.stored, writer.mmap, writer.unmap, NewQueue]
  · simp [queue.advanced, queue.stored, writer.mmap, writer.unmap, NewQueue]
  · rw [r2]
  · rw [r2]
    simp [queue.advanced, hp]
  · simp only [r2]

theorem gap_scenario (p : List UInt8) (hp : p.length = 209715177) :
    (NewQueue.write 1 p).1 = Outcome.ok () ∧
    (NewQueue.write 1 p).2.w.fid = 1 ∧
    (NewQueue.write 1 p).2.w.offset = 209715190 ∧
    ((NewQueue.write 1 p).2.write 2 []).1 = Outcome.panic ∧
    ((NewQueue.write 1 p).2.write 2 []).2.w.fid = 1 ∧
    ((NewQueue.write 1 p).2.write 2 []).2.w.offset = 209715190 := by
  have w1 : NewQueue.write 1 p = (Outcome.ok (), (writer.mmap NewQueue).stored 0 1 p) :=
    write_eq_unmapped NewQueue 1 p rfl (by
      show 0 + 13 + p.length ≤ FILE_SIZE
      rw [hp]; decide)
  rw [w1]
  have hoff : ((writer.mmap NewQueue).stored 0 1 p).w.offset = 209715190 := by
    show 0 + (1 + 8 + 4 + p.length) = 209715190
    rw [hp]
  have hg := write_gap_panic ((writer.mmap NewQueue).stored 0 1 p) 2 [] rfl
    (by rw [hoff]; decide) (by rw [hoff]; decide)
  refine ⟨rfl, rfl, hoff, hg.1, ?_, ?_⟩
  · rw [hg.2]; rfl
  · rw [hg.2]; exact hoff

/-- C1: a first record that fills segment 1 up to its last byte and an empty second
record are both written without error, the second into segment 2.  The first `read`
returns the first record; the second `read` returns no-data instead of the second
record, and so does every later one, the state being left as it is. -/
theorem rollover_read_returns_no_data :
    (NewQueue.write 1 nearlyFull).1 = Outcome.ok () ∧
    ((NewQueue.write 1 nearlyFull).2.write 2 []).1 = Outcome.ok () ∧
    ((NewQueue.write 1 nearlyFull).2.write 2 []).2.w.fid = 2 ∧
    ((NewQueue.write 1 nearlyFull).2.write 2 []).2.read.1 = Outcome.ok (1, nearlyFull) ∧
    ((NewQueue.write 1 nearlyFull).2.write 2 []).2.read.2.read.1
      = Outcome.err Err.notData ∧
    ((NewQueue.write 1 nearlyFull).2.write 2 []).2.read.2.read.2.read.1
      = Outcome.err Err.notData := by
  have h := rollover_scenario nearlyFull (List.length_replicate _ _)
  exact ⟨h.1, h.2.2.2.1, h.2.2.2.2.1, h.2.2.2.2.2.2.2.1, h.2.2.2.2.2.2.2.2.2.2.2.1,
    h.2.2.2.2.2.2.2.2.2.2.2.2.2⟩

/-- C4: after the writer has rolled from segment 1 to segment 2 and the reader has
read the one record of segment 1, the reader still has segment 1 mapped at the offset
where the writer left it, one byte short of `FILE_SIZE`, and the file of segment 1 is
still there; the following `read` returns no-data and the reader stays in segment 1. -/
theorem rollover_segment_not_reclaimed :
    ((NewQueue.write 1 nearlyFull).2.write 2 []).2.w.fid = 2 ∧
    ((NewQueue.write 1 nearlyFull).2.write 2 []).2.w.wmap 1 = some 209715199 ∧
    ((NewQueue.write 1 nearlyFull).2.write 2 []).2.read.2.r = ⟨1, 209715199, true⟩ ∧
    ((NewQueue.write 1 nearlyFull).2.write 2 []).2.read.2.present 1 = true ∧
    ((NewQueue.write 1 nearlyFull).2.write 2 []).2.read.2.read.1
      = Outcome.err Err.notData ∧
    ((NewQueue.write 1 nearlyFull).2.write 2 []).2.read.2.read.2.r
      = ⟨1, 209715199, true⟩ := by
  have h := rollover_scenario nearlyFull (List.length_replicate _ _)
  exact ⟨h.2.2.2.2.1, h.2.2.2.2.2.2.1, h.2.2.2.2.2.2.2.2.1, h.2.2.2.2.2.2.2.2.2.1,
    h.2.2.2.2.2.2.2.2.2.2.2.1, h.2.2.2.2.2.2.2.2.2.2.2.2.1⟩

/-- C3: with 10 bytes of segment 1 free, an empty record (13 bytes with its framing)
does not fit, and the test `woffset+1+4+msgLen > FILE_SIZE` still does not roll: the
write stays in segment 1 and panics on the slice of the length field. -/
theorem write_in_last_bytes_panics :
    (NewQueue.write 1 tenFree).1 = Outcome.ok () ∧
    (NewQueue.write 1 tenFree).2.w.fid = 1 ∧
    (NewQueue.write 1 tenFree).2.w.offset = 209715190 ∧
    (NewQueue.write 1 tenFree).2.w.offset + 13 + ([] : List UInt8).length > FILE_SIZE ∧
    ((NewQueue.write 1 tenFree).2.write 2 []).1 = Outcome.panic ∧
    ((NewQueue.write 1 tenFree).2.write 2 []).2.w.fid = 1 := by
  have h := gap_scenario tenFree (List.length_replicate _ _)
  obtain ⟨h1, h2, h3, h4, h5, -⟩ := h
  refine ⟨h1, h2, h3, ?_, h4, h5⟩
  rw [h3]; decide

/-- C2: a payload one byte longer than a segment holds after the framing makes
`write` panic on the slice of the payload; no error is returned. -/
theorem write_oversize_panics :
    oversize.length = FILE_SIZE - 13 + 1 ∧
    (NewQueue.write 1 oversize).1 = Outcome.panic ∧
    ((NewQueue.write 1 [1, 2, 3]).2.write 2 oversize).1 = Outcome.panic := by
  have hl : oversize.length = 209715188 := List.length_replicate _ _
  refine ⟨by rw [hl]; decide, ?_, ?_⟩
  · exact write_panic_of_oversize NewQueue 1 oversize (by rw [hl]; decide)
  · exact write_panic_of_oversize _ 2 oversize (by rw [hl]; decide)

end gnode

namespace mq

/-! ## Routing: the sort and the least-loaded bucket -/

theorem ByNum.insert_perm (x : bucket) (l : List bucket) :
    (ByNum.insert x l).Perm (x :: l) := by
  induction l with
  | nil => simp [ByNum.insert]
  | cons y ys ih =>
    simp only [ByNum.insert]
    split
    · exact List.Perm.refl _
    · exact ((List.Perm.cons y ih).trans (List.Perm.swap x y ys))

theorem ByNum.foldl_perm (l acc : List bucket) :
    (l.foldl (fun acc x => ByNum.insert x acc) acc).Perm (l ++ acc) := by
  induction l generalizing acc with
  | nil => simp
  | cons x xs ih =>
    simp only [List.foldl_cons, List.cons_append]
    refine (ih _).trans ?_
    exact (List.Perm.append_left xs (ByNum.insert_perm x acc)).trans
      List.perm_middle

theorem ByNum.sort_perm (l : List bucket) : (ByNum.sort l).Perm l := by
  have h := ByNum.foldl_perm l []
  simpa [ByNum.sort] using h

theorem ByNum.insert_ascending (x : bucket) (l : List bucket) (h : Ascending l) :
    Ascending (ByNum.insert x l) := by
  induction l with
  | nil => simp [ByNum.insert, Ascending]
  | cons y ys ih =>
    unfold Ascending at h ih ⊢
    rw [List.pairwise_cons] at h
    simp only [ByNum.insert]
    split
    · rename_i hlt
      simp only [ByNum.Less, decide_eq_true_eq] at hlt
      refine List.Pairwise.cons ?_ (List.Pairwise.cons h.1 h.2)
      intro z hz
      rcases List.mem_cons.mp hz with rfl | hz
      · exact le_of_lt hlt
      · exact le_trans (le_of_lt hlt) (h.1 z hz)
    · rename_i hlt
      simp only [ByNum.Less, decide_eq_true_eq, not_lt] at hlt
      refine List.Pairwise.cons ?_ (ih h.2)
      intro z hz
      rcases List.mem_cons.mp ((ByNum.insert_perm x ys).subset hz) with rfl | hz
      · exact hlt
      · exact h.1 z hz

theorem ByNum.foldl_ascending (l acc : List bucket) (h : Ascending acc) :
    Ascending (l.foldl (fun acc x => ByNum.insert x acc) acc) := by
  induction l generalizing acc with
  | nil => simpa using h
  | cons x xs ih => exact ih _ (ByNum.insert_ascending x acc h)

theorem ByNum.sort_ascending (l : List bucket) : Ascending (ByNum.sort l) :=
  ByNum.foldl_ascending l [] List.Pairwise.nil

/-- The sorted slice of a non-empty slice: its first element is least loaded. -/
theorem ByNum.sort_head (bs : List bucket) (hne : bs ≠ []) :
    ∃ b rest, ByNum.sort bs = b :: rest ∧ (∀ x ∈ bs, b.jobNum ≤ x.jobNum) := by
  have hp := ByNum.sort_perm bs
  have ha := ByNum.sort_ascending bs
  cases hs : ByNum.sort bs with
  | nil =>
    rw [hs] at hp
    exact absurd (List.Perm.nil_eq hp) (fun h => hne h.symm)
  | cons b rest =>
    refine ⟨b, rest, rfl, ?_⟩
    intro x hx
    rw [hs] at hp ha
    unfold Ascending at ha
    rw [List.pairwise_cons] at ha
    rcases List.mem_cons.mp (hp.symm.subset hx) with rfl | hx
    · exact le_refl _
    · exact ha.1 x hx

/-- C8: for a non-empty slice of buckets, a card with positive delay is sent to
element 0 of the sorted slice, whose `jobNum` is at most that of every bucket, and the
sort leaves the slice a permutation of the original; a card with delay at most 0 is
sent to no bucket, the slice is untouched and the card goes to the ready queue. -/
theorem route_least_loaded (bs : List bucket) (card : JobCard) (hne : bs ≠ []) :
    (card.delay > 0 →
      ∃ b rest, Dispatcher.route bs card = (b :: rest, Sent.recvJob b) ∧
        b :: rest = ByNum.sort bs ∧
        (∀ x ∈ bs, b.jobNum ≤ x.jobNum) ∧ (b :: rest).Perm bs) ∧
    (card.delay ≤ 0 → Dispatcher.route bs card = (bs, Sent.readyQueue card.id)) := by
  constructor
  · intro hd
    obtain ⟨b, rest, hs, hmin⟩ := ByNum.sort_head bs hne
    refine ⟨b, rest, ?_, hs.symm, hmin, ?_⟩
    · simp [Dispatcher.route, hd, hs]
    · rw [← hs]; exact ByNum.sort_perm bs
  · intro hd
    have : ¬ card.delay > 0 := not_lt.mpr hd
    simp [Dispatcher.route, this]

theorem route_least_loaded_witness :
    ([⟨"0", 2, 0⟩, ⟨"1", 1, 0⟩] : List bucket) ≠ [] ∧
    (((⟨"j", "t", 5⟩ : JobCard).delay > 0 →
      ∃ b rest, Dispatcher.route [⟨"0", 2, 0⟩, ⟨"1", 1, 0⟩] ⟨"j", "t", 5⟩
          = (b :: rest, Sent.recvJob b) ∧
        b :: rest = ByNum.sort [⟨"0", 2, 0⟩, ⟨"1", 1, 0⟩] ∧
        (∀ x ∈ ([⟨"0", 2, 0⟩, ⟨"1", 1, 0⟩] : List bucket), b.jobNum ≤ x.jobNum) ∧
        (b :: rest).Perm [⟨"0", 2, 0⟩, ⟨"1", 1, 0⟩]) ∧
    ((⟨"j", "t", 5⟩ : JobCard).delay ≤ 0 →
      Dispatcher.route [⟨"0", 2, 0⟩, ⟨"1", 1, 0⟩] ⟨"j", "t", 5⟩
        = ([⟨"0", 2, 0⟩, ⟨"1", 1, 0⟩], Sent.readyQueue (⟨"j", "t", 5⟩ : JobCard).id))) :=
  ⟨by decide, route_least_loaded [⟨"0", 2, 0⟩, ⟨"1", 1, 0⟩] ⟨"j", "t", 5⟩ (by decide)⟩

/-! ## The timer reset test -/

/-- C7: the test of `bucket.run` subtracts `time.Duration(card.delay)`, a count of
nanoseconds, not `card.delay` seconds.  A bucket whose next scan is 10 seconds away
accepts a card with delay 3600 and signals `resetTimerChan`, although the scan is due
long before the job, where a test in seconds (third part) signals none.  With the scan
a day away the reset is signalled, as it should be. -/
theorem resetTimer_delay_in_nanoseconds :
    resetTimer (10 * Second) ⟨"j", "t", 3600⟩ = true ∧
    (bucket.recv ⟨"0", 0, 10 * Second⟩ ⟨"j", "t", 3600⟩ 0 true).2 = true ∧
    ¬ (10 * Second > 0 ∧ 10 * Second - 3600 * Second > 5 * Second) ∧
    resetTimer (86400 * Second) ⟨"j", "t", 3600⟩ = true := by
  decide

/-! ## Load balancing in the sequential model -/

theorem submit_spec (bs : List bucket) (card : JobCard) (hd : card.delay > 0)
    (hne : bs ≠ []) :
    ∃ b rest, ByNum.sort bs = b :: rest ∧ (∀ x ∈ bs, b.jobNum ≤ x.jobNum) ∧
      submit bs card = { b with jobNum := b.jobNum + 1 } :: rest := by
  obtain ⟨b, rest, hs, hmin⟩ := ByNum.sort_head bs hne
  refine ⟨b, rest, hs, hmin, ?_⟩
  simp [submit, Dispatcher.route, hd, hs, bucket.recv]

theorem submit_nil (card : JobCard) : submit [] card = [] := by
  by_cases hd : card.delay > 0 <;> simp [submit, Dispatcher.route, hd, ByNum.sort]

theorem totalJobs_perm {l₁ l₂ : List bucket} (h : l₁.Perm l₂) :
    totalJobs l₁ = totalJobs l₂ := by
  unfold totalJobs
  exact (h.map _).sum_eq

theorem submit_length (bs : List bucket) (card : JobCard) (hd : card.delay > 0) :
    (submit bs card).length = bs.length := by
  by_cases hne : bs = []
  · subst hne; simp [submit_nil]
  · obtain ⟨b, rest, hs, -, he⟩ := submit_spec bs card hd hne
    have hp := (ByNum.sort_perm bs).length_eq
    rw [hs] at hp
    rw [he, ← hp]; simp

theorem submit_total (bs : List bucket) (card : JobCard) (hd : card.delay > 0)
    (hne : bs ≠ []) : totalJobs (submit bs card) = totalJobs bs + 1 := by
  obtain ⟨b, rest, hs, -, he⟩ := submit_spec bs card hd hne
  have hp := totalJobs_perm (ByNum.sort_perm bs)
  rw [hs] at hp
  rw [he, ← hp]
  simp only [totalJobs, List.map_cons, List.sum_cons]
  ring

theorem submit_balanced (bs : List bucket) (card : JobCard) (hd : card.delay > 0)
    (a : Int) (hb : Balanced a bs) : ∃ a1, Balanced a1 (submit bs card) := by
  by_cases hne : bs = []
  · subst hne
    exact ⟨a, by simp [submit_nil, Balanced]⟩
  · obtain ⟨b, rest, hs, hmin, he⟩ := submit_spec bs card hd hne
    have hp := ByNum.sort_perm bs
    rw [hs] at hp
    have hbm : b ∈ bs := hp.subset (List.mem_cons_self b rest)
    have hrest : ∀ x ∈ rest, x ∈ bs := fun x hx => hp.subset (List.mem_cons_of_mem b hx)
    rcases hb b hbm with h0 | h1
    · refine ⟨a, ?_⟩
      rw [he]
      intro x hx
      rcases List.mem_cons.mp hx with rfl | hx
      · right; simp [h0]
      · exact hb x (hrest x hx)
    · refine ⟨a + 1, ?_⟩
      rw [he]
      intro x hx
      rcases List.mem_cons.mp hx with rfl | hx
      · right; simp [h1]
      · left
        have h2 := hmin x (hrest x hx)
        rcases hb x (hrest x hx) with h | h <;> omega

theorem submitAll_inv (cards : List JobCard) (hd : ∀ c ∈ cards, c.delay > 0)
    (bs : List bucket) (hne : bs ≠ []) (a : Int) (hb : Balanced a bs) :
    (submitAll bs cards).length = bs.length ∧
    totalJobs (submitAll bs cards) = totalJobs bs + cards.length ∧
    ∃ a1, Balanced a1 (submitAll bs cards) := by
  induction cards generalizing bs a with
  | nil => exact ⟨rfl, by simp [submitAll], a, hb⟩
  | cons c cs ih =>
    have hc : c.delay > 0 := hd c (List.mem_cons_self c cs)
    have hl := submit_length bs c hc
    have hne1 : submit bs c ≠ [] := by
      intro h
      rw [h] at hl
      exact hne (List.length_eq_zero.mp hl.symm)
    obtain ⟨a1, hb1⟩ := submit_balanced bs c hc a hb
    obtain ⟨h1, h2, h3⟩ :=
      ih (fun x hx => hd x (List.mem_cons_of_mem c hx)) (submit bs c) hne1 a1 hb1
    refine ⟨?_, ?_, ?_⟩
    · simpa [submitAll, hl] using h1
    · have ht := submit_total bs c hc hne
      simp only [submitAll, List.foldl_cons, List.length_cons] at h2 ⊢
      rw [h2, ht]; push_cast; ring
    · simpa [submitAll] using h3

theorem totalJobs_bounds (a : Int) (bs : List bucket) (hb : Balanced a bs) :
    bs.length * a ≤ totalJobs bs ∧ totalJobs bs ≤ bs.length * (a + 1) ∧
    (totalJobs bs = bs.length * a → ∀ b ∈ bs, b.jobNum = a) ∧
    (totalJobs bs = bs.length * (a + 1) → ∀ b ∈ bs, b.jobNum = a + 1) := by
  induction bs with
  | nil => simp [totalJobs]
  | cons x xs ih =>
    have hx := hb x (List.mem_cons_self x xs)
    obtain ⟨i1, i2, i3, i4⟩ := ih (fun b h => hb b (List.mem_cons_of_mem x h))
    have ht : totalJobs (x :: xs) = x.jobNum + totalJobs xs := by simp [totalJobs]
    have hl : (((x :: xs).length : Nat) : Int) = (xs.length : Int) + 1 := by simp
    rw [ht, hl]
    refine ⟨by rcases hx with h | h <;> nlinarith, by rcases hx with h | h <;> nlinarith, ?_, ?_⟩
    · intro he b hbm
      have hxa : x.jobNum = a := by rcases hx with h | h <;> [exact h; nlinarith]
      rcases List.mem_cons.mp hbm with rfl | hbm
      · exact hxa
      · exact i3 (by nlinarith) b hbm
    · intro he b hbm
      have hxa : x.jobNum = a + 1 := by rcases hx with h | h <;> [nlinarith; exact h]
      rcases List.mem_cons.mp hbm with rfl | hbm
      · exact hxa
      · exact i4 (by nlinarith) b hbm

/-- C9: from `N > 0` buckets that all hold 0 jobs, after any number of submissions of
cards with positive delay, each routed and accepted before the next, the slice still
has its `N` buckets, any two of them differ by at most 1 in `jobNum`, and after exactly
`N * k` submissions every bucket holds `k` jobs. -/
theorem load_balanced (bs : List bucket) (cards : List JobCard)
    (hN : 0 < bs.length) (h0 : ∀ b ∈ bs, b.jobNum = 0)
    (hd : ∀ c ∈ cards, c.delay > 0) :
    (submitAll bs cards).length = bs.length ∧
    (∀ x ∈ submitAll bs cards, ∀ y ∈ submitAll bs cards, |x.jobNum - y.jobNum| ≤ 1) ∧
    (∀ k : Nat, cards.length = bs.length * k →
      ∀ x ∈ submitAll bs cards, x.jobNum = k) := by
  have hne : bs ≠ [] := by
    intro h; rw [h] at hN; exact absurd hN (by simp)
  have hb0 : Balanced 0 bs := fun b hb => Or.inl (h0 b hb)
  have ht0 : totalJobs bs = 0 := by
    have := totalJobs_bounds 0 bs hb0
    have h3 := this.2.2.1
    by_contra hcon
    have hall : ∀ b ∈ bs, b.jobNum = 0 := h0
    clear h3 this
    unfold totalJobs at hcon
    apply hcon
    apply List.sum_eq_zero
    intro x hx
    obtain ⟨b, hb, rfl⟩ := List.mem_map.mp hx
    exact hall b hb
  obtain ⟨hl, ht, a, hb⟩ := submitAll_inv cards hd bs hne 0 hb0
  refine ⟨hl, ?_, ?_⟩
  · intro x hx y hy
    have h1 := hb x hx
    have h2 := hb y hy
    rw [abs_le]
    rcases h1 with h1 | h1 <;> rcases h2 with h2 | h2 <;> constructor <;> omega
  · intro k hk x hx
    obtain ⟨b1, b2, b3, b4⟩ := totalJobs_bounds a _ hb
    rw [hl] at b1 b2 b3 b4
    rw [ht, ht0, hk] at b1 b2 b3 b4
    push_cast at b1 b2 b3 b4
    simp only [zero_add] at b1 b2 b3 b4
    have hNpos : (0 : Int) < bs.length := by exact_mod_cast hN
    have hka : a ≤ k := by
      by_contra h
      have : (k : Int) + 1 ≤ a := by omega
      nlinarith
    have hka2 : (k : Int) ≤ a + 1 := by
      by_contra h
      have : a + 2 ≤ (k : Int) := by omega
      nlinarith
    rcases (by omega : (k : Int) = a ∨ (k : Int) = a + 1) with h | h
    · rw [h]; exact b3 (by rw [h]) x hx
    · rw [h]; exact b4 (by rw [h]) x hx

theorem load_balanced_witness :
    0 < ([⟨"0", 0, 0⟩, ⟨"1", 0, 0⟩] : List bucket).length ∧
    (∀ c ∈ ([⟨"a", "t", 5⟩, ⟨"b", "t", 9⟩] : List JobCard), c.delay > 0) ∧
    (submitAll [⟨"0", 0, 0⟩, ⟨"1", 0, 0⟩] [⟨"a", "t", 5⟩, ⟨"b", "t", 9⟩]).map
        (fun b => b.jobNum) = [1, 1] ∧
    ((submitAll [⟨"0", 0, 0⟩, ⟨"1", 0, 0⟩] [⟨"a", "t", 5⟩, ⟨"b", "t", 9⟩]).length
        = ([⟨"0", 0, 0⟩, ⟨"1", 0, 0⟩] : List bucket).length ∧
      (∀ x ∈ submitAll [⟨"0", 0, 0⟩, ⟨"1", 0, 0⟩] [⟨"a", "t", 5⟩, ⟨"b", "t", 9⟩],
        ∀ y ∈ submitAll [⟨"0", 0, 0⟩, ⟨"1", 0, 0⟩] [⟨"a", "t", 5⟩, ⟨"b", "t", 9⟩],
          |x.jobNum - y.jobNum| ≤ 1) ∧
      (∀ k : Nat,
        ([⟨"a", "t", 5⟩, ⟨"b", "t", 9⟩] : List JobCard).length
            = ([⟨"0", 0, 0⟩, ⟨"1", 0, 0⟩] : List bucket).length * k →
        ∀ x ∈ submitAll [⟨"0", 0, 0⟩, ⟨"1", 0, 0⟩] [⟨"a", "t", 5⟩, ⟨"b", "t", 9⟩],
          x.jobNum = k)) :=
  ⟨by decide, by decide, by decide,
    load_balanced [⟨"0", 0, 0⟩, ⟨"1", 0, 0⟩] [⟨"a", "t", 5⟩, ⟨"b", "t", 9⟩]
      (by decide) (by decide) (by decide)⟩

end mq
